import Mathlib

/-!
Shallow embedding of `scripts/split_msb_lsb.py`, function `split_file_from_stream`.

The program deinterleaves a byte stream of 16-bit words into two sinks
("upper" bytes and "lower" bytes).  Bytes are modelled as `Nat`, the input
source as a `List Nat` from which each `read(buffer_size)` takes the next
`buffer_size` bytes, and the two output files as accumulated `List Nat`
sink contents.  `sys.exit(1)` on the odd-length `error` policy is modelled
as the `Except.error` branch carrying the printed odd byte and the sink
contents flushed at exit.
-/

/-- The `--odd-byte` choices: `error` (default), `skip`, `lower`, `upper`. -/
inductive OddByteAction
  | error
  | skip
  | lower
  | upper
deriving DecidableEq, Repr

/-- Python slice `data[::2]`: the bytes at even offsets, in order. -/
def evens : List Nat → List Nat
  | [] => []
  | [a] => [a]
  | a :: _ :: rest => a :: evens rest

/-- Python slice `data[1::2]`: the bytes at odd offsets, in order. -/
def odds : List Nat → List Nat
  | [] => []
  | [_] => []
  | _ :: b :: rest => b :: odds rest

/-- `chunk[:word_pairs * 2]` with `word_pairs = len(chunk) // 2`:
the even-length part of a chunk that is cut into complete word pairs. -/
def paired (xs : List Nat) : List Nat := xs.take (xs.length / 2 * 2)

/-- `chunk[word_pairs * 2:]`: the 0- or 1-byte leftover after pairing. -/
def oddTail (xs : List Nat) : List Nat := xs.drop (xs.length / 2 * 2)

/-- `up_bytes`: in big-endian mode the even-offset bytes, else odd-offset. -/
def upSel (bigEndian : Bool) (data : List Nat) : List Nat :=
  if bigEndian then evens data else odds data

/-- `lo_bytes`: in big-endian mode the odd-offset bytes, else even-offset. -/
def loSel (bigEndian : Bool) (data : List Nat) : List Nat :=
  if bigEndian then odds data else evens data

/-- Mutable state of the read loop: the two sink contents, the
`bytes_written` word-pair counter and the carried `remainder`. -/
structure LoopState where
  lo : List Nat
  up : List Nat
  bytesWritten : Nat
  remainder : List Nat
deriving DecidableEq, Repr

/-- One iteration body of the read loop on a non-empty `read_data`:
form `chunk = remainder + read_data`, write the deinterleaved complete
word pairs to the sinks, keep the 0/1-byte leftover as new remainder
(`if word_pairs > 0` branch), else keep the whole short chunk. -/
def processChunk (bigEndian : Bool) (s : LoopState) (readData : List Nat) : LoopState :=
  let chunk := s.remainder ++ readData
  let wordPairs := chunk.length / 2
  if 0 < wordPairs then
    let data := chunk.take (wordPairs * 2)
    { lo := s.lo ++ loSel bigEndian data
      up := s.up ++ upSel bigEndian data
      bytesWritten := s.bytesWritten + wordPairs
      remainder := chunk.drop (wordPairs * 2) }
  else
    { s with remainder := chunk }

/-- The `while True` read loop, driven by a fuel counter (the loop makes at
most one iteration per input byte, see `splitLoopAux_fuel_irrel`): read up
to `bufferSize` bytes; exit on an empty read, else process the chunk and
continue on the rest of the source. -/
def splitLoopAux (bigEndian : Bool) (bufferSize : Nat) :
    Nat → List Nat → LoopState → LoopState
  | 0, _, s => s
  | fuel + 1, input, s =>
    if (input.take bufferSize).isEmpty then s
    else splitLoopAux bigEndian bufferSize fuel (input.drop bufferSize)
      (processChunk bigEndian s (input.take bufferSize))

/-- The read loop on a finite source: fuel `input.length` always suffices. -/
def splitLoop (bigEndian : Bool) (bufferSize : Nat) (input : List Nat)
    (s : LoopState) : LoopState :=
  splitLoopAux bigEndian bufferSize input.length input s

/-- The sequence of loop states at each loop boundary (before each read),
ending with the state at loop exit. -/
def splitLoopTraceAux (bigEndian : Bool) (bufferSize : Nat) :
    Nat → List Nat → LoopState → List LoopState
  | 0, _, s => [s]
  | fuel + 1, input, s =>
    if (input.take bufferSize).isEmpty then [s]
    else s :: splitLoopTraceAux bigEndian bufferSize fuel (input.drop bufferSize)
      (processChunk bigEndian s (input.take bufferSize))

/-- Loop-boundary states of the run of `splitLoop`. -/
def splitLoopTrace (bigEndian : Bool) (bufferSize : Nat) (input : List Nat)
    (s : LoopState) : List LoopState :=
  splitLoopTraceAux bigEndian bufferSize input.length input s

/-- The returned record: the Python tuple
`(bytes_written, odd_byte_value >= 0, odd_byte_value if odd_byte_value >= 0 else -1)`
together with the final contents of the two sink files. -/
structure SplitResult where
  bytesWritten : Nat
  hadOddByte : Bool
  oddByteValue : Int
  lo : List Nat
  up : List Nat
deriving DecidableEq, Repr

/-- The odd-length failure under the `error` policy (`sys.exit(1)`):
the odd byte printed in the message, and the sink contents flushed when
the `with` blocks close the files on exit. -/
structure OddLengthError where
  oddByte : Int
  lo : List Nat
  up : List Nat
deriving DecidableEq, Repr

/-- Builds the return value from the final `odd_byte_value`, mirroring
`return bytes_written, odd_byte_value >= 0, odd_byte_value if odd_byte_value >= 0 else -1`. -/
def mkResult (bytesWritten : Nat) (oddByteValue : Int) (loBytes upBytes : List Nat) :
    SplitResult :=
  { bytesWritten := bytesWritten
    hadOddByte := decide (0 ≤ oddByteValue)
    oddByteValue := if 0 ≤ oddByteValue then oddByteValue else -1
    lo := loBytes
    up := upBytes }

/-- Initial loop state: empty sinks, `bytes_written = 0`, `remainder = b''`. -/
def initState : LoopState :=
  { lo := [], up := [], bytesWritten := 0, remainder := [] }

/-- `split_file_from_stream`: run the read loop, then dispose of the
remainder (the odd byte) according to `odd_byte_action`, and return the
result tuple with the sink contents. -/
def split_file_from_stream (bigEndian : Bool) (oddByteAction : OddByteAction)
    (bufferSize : Nat) (input : List Nat) : Except OddLengthError SplitResult :=
  let s := splitLoop bigEndian bufferSize input initState
  match s.remainder with
  | [] => Except.ok (mkResult s.bytesWritten (-1) s.lo s.up)
  | b :: rest =>
    match oddByteAction with
    | OddByteAction.error => Except.error { oddByte := b, lo := s.lo, up := s.up }
    | OddByteAction.skip => Except.ok (mkResult s.bytesWritten (-1) s.lo s.up)
    | OddByteAction.lower =>
        Except.ok (mkResult s.bytesWritten b (s.lo ++ b :: rest) s.up)
    | OddByteAction.upper =>
        Except.ok (mkResult s.bytesWritten b s.lo (s.up ++ b :: rest))

/-- The sink contents of either outcome (normal return or odd-length failure). -/
def sinksOf : Except OddLengthError SplitResult → List Nat × List Nat
  | Except.ok r => (r.lo, r.up)
  | Except.error e => (e.lo, e.up)

/-- The spec's round-trip reassembly: pair off the two sink streams
word-by-word; a dangling unmatched byte forms no word. -/
def interleave : List Nat → List Nat → List Nat
  | a :: as, b :: bs => a :: b :: interleave as bs
  | _, _ => []

/-- Interleave the sinks back per the byte-order mode: big-endian words are
(upper, lower), little-endian words are (lower, upper). -/
def reconstruct (bigEndian : Bool) (loBytes upBytes : List Nat) : List Nat :=
  if bigEndian then interleave upBytes loBytes else interleave loBytes upBytes

example : split_file_from_stream true OddByteAction.error 2 [18, 52, 171, 205] =
    Except.ok { bytesWritten := 2, hadOddByte := false, oddByteValue := -1,
                lo := [52, 205], up := [18, 171] } := rfl

example : split_file_from_stream false OddByteAction.error 3 [18, 52, 171, 205] =
    Except.ok { bytesWritten := 2, hadOddByte := false, oddByteValue := -1,
                lo := [18, 171], up := [52, 205] } := rfl

example : split_file_from_stream true OddByteAction.upper 1 [127] =
    Except.ok { bytesWritten := 0, hadOddByte := true, oddByteValue := 127,
                lo := [], up := [127] } := rfl

example : split_file_from_stream true OddByteAction.error 1 [1, 2, 3] =
    Except.error { oddByte := 3, lo := [2], up := [1] } := rfl

example : split_file_from_stream true OddByteAction.skip 1 [1, 2, 3] =
    Except.ok { bytesWritten := 1, hadOddByte := false, oddByteValue := -1,
                lo := [2], up := [1] } := rfl

/-! ### Basic facts about pairing and deinterleaving -/

theorem length_paired (xs : List Nat) : (paired xs).length = xs.length / 2 * 2 := by
  simp [paired, List.length_take]
  omega

theorem length_oddTail (xs : List Nat) : (oddTail xs).length = xs.length % 2 := by
  simp [oddTail, List.length_drop]
  omega

theorem paired_append_oddTail (xs : List Nat) : paired xs ++ oddTail xs = xs :=
  List.take_append_drop _ _

theorem length_paired_even (xs : List Nat) : (paired xs).length % 2 = 0 := by
  rw [length_paired]
  omega

theorem paired_of_even (xs : List Nat) (h : xs.length % 2 = 0) : paired xs = xs := by
  unfold paired
  have h2 : xs.length / 2 * 2 = xs.length := by omega
  rw [h2, List.take_length]

theorem oddTail_of_even (xs : List Nat) (h : xs.length % 2 = 0) : oddTail xs = [] := by
  unfold oddTail
  have h2 : xs.length / 2 * 2 = xs.length := by omega
  rw [h2, List.drop_length]

theorem length_evens : ∀ xs : List Nat, (evens xs).length = (xs.length + 1) / 2
  | [] => rfl
  | [_] => by simp [evens]
  | _ :: _ :: rest => by
      simp [evens, length_evens rest]
      omega

theorem length_odds : ∀ xs : List Nat, (odds xs).length = xs.length / 2
  | [] => rfl
  | [_] => by simp [odds]
  | _ :: _ :: rest => by
      simp [odds, length_odds rest]
      omega

theorem evens_append_even :
    ∀ (e : List Nat), e.length % 2 = 0 → ∀ x, evens (e ++ x) = evens e ++ evens x
  | [], _, _ => rfl
  | [_], h, _ => by simp at h
  | a :: b :: rest, h, x => by
      have h' : rest.length % 2 = 0 := by simp [List.length_cons] at h; omega
      simp [evens, evens_append_even rest h' x]

theorem odds_append_even :
    ∀ (e : List Nat), e.length % 2 = 0 → ∀ x, odds (e ++ x) = odds e ++ odds x
  | [], _, _ => rfl
  | [_], h, _ => by simp at h
  | a :: b :: rest, h, x => by
      have h' : rest.length % 2 = 0 := by simp [List.length_cons] at h; omega
      simp [odds, odds_append_even rest h' x]

theorem loSel_append_even (be : Bool) (e x : List Nat) (h : e.length % 2 = 0) :
    loSel be (e ++ x) = loSel be e ++ loSel be x := by
  cases be <;> simp [loSel, evens_append_even e h x, odds_append_even e h x]

theorem upSel_append_even (be : Bool) (e x : List Nat) (h : e.length % 2 = 0) :
    upSel be (e ++ x) = upSel be e ++ upSel be x := by
  cases be <;> simp [upSel, evens_append_even e h x, odds_append_even e h x]

theorem paired_append_even (e x : List Nat) (h : e.length % 2 = 0) :
    paired (e ++ x) = e ++ paired x := by
  unfold paired
  have h1 : (e ++ x).length / 2 * 2 = e.length + x.length / 2 * 2 := by
    simp [List.length_append]
    omega
  rw [h1, List.take_append]

theorem oddTail_append_even (e x : List Nat) (h : e.length % 2 = 0) :
    oddTail (e ++ x) = oddTail x := by
  unfold oddTail
  have h1 : (e ++ x).length / 2 * 2 = e.length + x.length / 2 * 2 := by
    simp [List.length_append]
    omega
  rw [h1, List.drop_append]

theorem evens_getElem? : ∀ (xs : List Nat) (i : Nat), (evens xs)[i]? = xs[2 * i]?
  | [], i => by simp [evens]
  | [a], i => by
      cases i with
      | zero => rfl
      | succ j =>
          rw [List.getElem?_eq_none
                (by simp only [evens, List.length_cons, List.length_nil]; omega),
              List.getElem?_eq_none
                (by simp only [List.length_cons, List.length_nil]; omega)]
  | a :: b :: rest, i => by
      cases i with
      | zero => simp [evens]
      | succ j =>
          have h2 : 2 * (j + 1) = 2 * j + 1 + 1 := by omega
          rw [h2]
          simp only [evens, List.getElem?_cons_succ]
          exact evens_getElem? rest j

theorem odds_getElem? : ∀ (xs : List Nat) (i : Nat), (odds xs)[i]? = xs[2 * i + 1]?
  | [], i => by simp [odds]
  | [a], i => by
      rw [List.getElem?_eq_none
            (by simp only [odds, List.length_nil]; omega),
          List.getElem?_eq_none
            (by simp only [List.length_cons, List.length_nil]; omega)]
  | a :: b :: rest, i => by
      cases i with
      | zero => simp [odds]
      | succ j =>
          have h2 : 2 * (j + 1) + 1 = 2 * j + 1 + 1 + 1 := by omega
          rw [h2]
          simp only [odds, List.getElem?_cons_succ]
          exact odds_getElem? rest j

theorem interleave_evens_odds :
    ∀ (p : List Nat), p.length % 2 = 0 →
      ∀ x y, interleave (evens p ++ x) (odds p ++ y) = p ++ interleave x y
  | [], _, _, _ => rfl
  | [_], h, _, _ => by simp at h
  | a :: b :: rest, h, x, y => by
      have h' : rest.length % 2 = 0 := by simp [List.length_cons] at h; omega
      simp [evens, odds, interleave, interleave_evens_odds rest h' x y]

/-! ### Characterization of the read loop -/

theorem state_eq_of_short (be : Bool) (s : LoopState) (hr : s.remainder.length ≤ 1) :
    ({ lo := s.lo ++ loSel be (paired s.remainder)
       up := s.up ++ upSel be (paired s.remainder)
       bytesWritten := s.bytesWritten + s.remainder.length / 2
       remainder := oddTail s.remainder } : LoopState) = s := by
  have h2 : s.remainder.length / 2 = 0 := by omega
  have hp : paired s.remainder = [] := by
    unfold paired
    rw [h2]
    rfl
  have ht : oddTail s.remainder = s.remainder := by
    unfold oddTail
    rw [h2]
    rfl
  simp [hp, ht, h2, loSel, upSel, evens, odds]

theorem processChunk_eq (be : Bool) (s : LoopState) (d : List Nat) :
    processChunk be s d =
      { lo := s.lo ++ loSel be (paired (s.remainder ++ d))
        up := s.up ++ upSel be (paired (s.remainder ++ d))
        bytesWritten := s.bytesWritten + (s.remainder ++ d).length / 2
        remainder := oddTail (s.remainder ++ d) } := by
  unfold processChunk
  by_cases h : 0 < (s.remainder ++ d).length / 2
  · rw [if_pos h]
    rfl
  · rw [if_neg h]
    have h0 : (s.remainder ++ d).length / 2 = 0 := by omega
    unfold paired oddTail
    rw [h0]
    simp [loSel, upSel, evens, odds]

theorem splitLoopAux_eq (be : Bool) (bs : Nat) (hbs : 1 ≤ bs) :
    ∀ (fuel : Nat) (input : List Nat) (s : LoopState),
      input.length ≤ fuel → s.remainder.length ≤ 1 →
      splitLoopAux be bs fuel input s =
        { lo := s.lo ++ loSel be (paired (s.remainder ++ input))
          up := s.up ++ upSel be (paired (s.remainder ++ input))
          bytesWritten := s.bytesWritten + (s.remainder ++ input).length / 2
          remainder := oddTail (s.remainder ++ input) } := by
  intro fuel
  induction fuel with
  | zero =>
      intro input s hf hr
      have hin : input = [] := by
        cases input with
        | nil => rfl
        | cons a l => simp at hf
      subst hin
      rw [List.append_nil]
      exact (state_eq_of_short be s hr).symm
  | succ fuel ih =>
      intro input s hf hr
      by_cases h : (input.take bs).isEmpty
      · have hin : input = [] := by
          rw [List.isEmpty_iff, List.take_eq_nil_iff] at h
          rcases h with h | h
          · omega
          · exact h
        subst hin
        simp only [splitLoopAux, List.take_nil, List.isEmpty_nil, if_true]
        rw [List.append_nil]
        exact (state_eq_of_short be s hr).symm
      · have hne : input ≠ [] := by
          intro he
          subst he
          simp at h
        have hlen1 : 1 ≤ input.length := by
          cases input with
          | nil => exact absurd rfl hne
          | cons a l => simp
        simp only [splitLoopAux, h, Bool.false_eq_true, if_false]
        rw [processChunk_eq]
        have hrem' : (oddTail (s.remainder ++ input.take bs)).length ≤ 1 := by
          rw [length_oddTail]
          omega
        have hflen : (input.drop bs).length ≤ fuel := by
          rw [List.length_drop]
          omega
        rw [ih (input.drop bs) _ hflen hrem']
        have hct : s.remainder ++ input =
            (s.remainder ++ input.take bs) ++ input.drop bs := by
          rw [List.append_assoc, List.take_append_drop]
        have hsplit : (s.remainder ++ input.take bs) ++ input.drop bs =
            paired (s.remainder ++ input.take bs) ++
              (oddTail (s.remainder ++ input.take bs) ++ input.drop bs) := by
          rw [← List.append_assoc, paired_append_oddTail]
        have hpe := length_paired_even (s.remainder ++ input.take bs)
        simp only [LoopState.mk.injEq]
        refine ⟨?_, ?_, ?_, ?_⟩
        · rw [hct, hsplit, paired_append_even _ _ hpe, loSel_append_even be _ _ hpe,
              List.append_assoc]
        · rw [hct, hsplit, paired_append_even _ _ hpe, upSel_append_even be _ _ hpe,
              List.append_assoc]
        · rw [hct, hsplit]
          simp only [List.length_append, length_paired, length_oddTail]
          omega
        · rw [hct, hsplit, oddTail_append_even _ _ hpe]

theorem splitLoop_run (be : Bool) (bs : Nat) (input : List Nat) (hbs : 1 ≤ bs) :
    splitLoop be bs input initState =
      { lo := loSel be (paired input)
        up := upSel be (paired input)
        bytesWritten := input.length / 2
        remainder := oddTail input } := by
  unfold splitLoop
  rw [splitLoopAux_eq be bs hbs input.length input initState le_rfl (by simp [initState])]
  simp [initState]

theorem splitLoopAux_fuel_irrel (be : Bool) (bs : Nat) (hbs : 1 ≤ bs) :
    ∀ (f1 f2 : Nat) (input : List Nat) (s : LoopState),
      input.length ≤ f1 → input.length ≤ f2 →
      splitLoopAux be bs f1 input s = splitLoopAux be bs f2 input s := by
  intro f1
  induction f1 with
  | zero =>
      intro f2 input s h1 h2
      have hin : input = [] := by
        cases input with
        | nil => rfl
        | cons a l => simp at h1
      subst hin
      cases f2 with
      | zero => rfl
      | succ f2 => simp [splitLoopAux]
  | succ f1 ih =>
      intro f2 input s h1 h2
      cases f2 with
      | zero =>
          have hin : input = [] := by
            cases input with
            | nil => rfl
            | cons a l => simp at h2
          subst hin
          simp [splitLoopAux]
      | succ f2 =>
          by_cases h : (input.take bs).isEmpty
          · simp only [splitLoopAux, h, if_true]
          · have hne : input ≠ [] := by
              intro he
              subst he
              simp at h
            have hlen1 : 1 ≤ input.length := by
              cases input with
              | nil => exact absurd rfl hne
              | cons a l => simp
            simp only [splitLoopAux, h, Bool.false_eq_true, if_false]
            exact ih f2 (input.drop bs) _
              (by rw [List.length_drop]; omega) (by rw [List.length_drop]; omega)

theorem splitLoopTraceAux_remainder (be : Bool) (bs : Nat) :
    ∀ (fuel : Nat) (input : List Nat) (s : LoopState), s.remainder.length ≤ 1 →
      ∀ st ∈ splitLoopTraceAux be bs fuel input s, st.remainder.length ≤ 1 := by
  intro fuel
  induction fuel with
  | zero =>
      intro input s hr st hst
      simp only [splitLoopTraceAux, List.mem_singleton] at hst
      subst hst
      exact hr
  | succ fuel ih =>
      intro input s hr st hst
      by_cases h : (input.take bs).isEmpty
      · simp only [splitLoopTraceAux, h, if_true, List.mem_singleton] at hst
        subst hst
        exact hr
      · simp only [splitLoopTraceAux, h, Bool.false_eq_true, if_false,
          List.mem_cons] at hst
        rcases hst with hst | hst
        · subst hst
          exact hr
        · refine ih (input.drop bs) _ ?_ st hst
          rw [processChunk_eq]
          rw [length_oddTail]
          omega

theorem splitLoopTraceAux_length (be : Bool) (bs : Nat) (hbs : 1 ≤ bs) :
    ∀ (fuel : Nat) (input : List Nat) (s : LoopState),
      (splitLoopTraceAux be bs fuel input s).length ≤ input.length + 1 := by
  intro fuel
  induction fuel with
  | zero =>
      intro input s
      simp [splitLoopTraceAux]
  | succ fuel ih =>
      intro input s
      by_cases h : (input.take bs).isEmpty
      · simp [splitLoopTraceAux, h]
      · have hne : input ≠ [] := by
          intro he
          subst he
          simp at h
        have hlen1 : 1 ≤ input.length := by
          cases input with
          | nil => exact absurd rfl hne
          | cons a l => simp
        simp only [splitLoopTraceAux, h, Bool.false_eq_true, if_false, List.length_cons]
        have := ih (input.drop bs) (processChunk be s (input.take bs))
        rw [List.length_drop] at this
        omega

theorem oddTail_of_odd (input : List Nat) (h : input.length % 2 = 1) :
    ∃ b, oddTail input = [b] ∧ input[input.length - 1]? = some b := by
  have hl : (oddTail input).length = 1 := by rw [length_oddTail, h]
  obtain ⟨b, hb⟩ := List.length_eq_one.mp hl
  refine ⟨b, hb, ?_⟩
  have hidx : input[input.length - 1]? = (oddTail input)[0]? := by
    unfold oddTail
    rw [List.getElem?_drop]
    congr 1
    omega
  rw [hidx, hb]
  rfl

/-! ### Characterization of `split_file_from_stream` -/

theorem split_eq_of_even (be : Bool) (a : OddByteAction) (bs : Nat) (input : List Nat)
    (hbs : 1 ≤ bs) (h : input.length % 2 = 0) :
    split_file_from_stream be a bs input =
      Except.ok { bytesWritten := input.length / 2, hadOddByte := false, oddByteValue := -1,
                  lo := loSel be (paired input), up := upSel be (paired input) } := by
  unfold split_file_from_stream
  rw [splitLoop_run be bs input hbs]
  simp only [oddTail_of_even input h]
  rfl

theorem split_eq_of_odd (be : Bool) (bs : Nat) (input : List Nat)
    (hbs : 1 ≤ bs) (h : input.length % 2 = 1) :
    ∃ b, input[input.length - 1]? = some b ∧
      split_file_from_stream be OddByteAction.error bs input =
        Except.error { oddByte := b, lo := loSel be (paired input),
                       up := upSel be (paired input) } ∧
      split_file_from_stream be OddByteAction.skip bs input =
        Except.ok { bytesWritten := input.length / 2, hadOddByte := false, oddByteValue := -1,
                    lo := loSel be (paired input), up := upSel be (paired input) } ∧
      split_file_from_stream be OddByteAction.lower bs input =
        Except.ok { bytesWritten := input.length / 2, hadOddByte := true, oddByteValue := b,
                    lo := loSel be (paired input) ++ [b], up := upSel be (paired input) } ∧
      split_file_from_stream be OddByteAction.upper bs input =
        Except.ok { bytesWritten := input.length / 2, hadOddByte := true, oddByteValue := b,
                    lo := loSel be (paired input), up := upSel be (paired input) ++ [b] } := by
  obtain ⟨b, hb, hget⟩ := oddTail_of_odd input h
  refine ⟨b, hget, ?_, ?_, ?_, ?_⟩
  · unfold split_file_from_stream
    rw [splitLoop_run be bs input hbs, hb]
  · unfold split_file_from_stream
    rw [splitLoop_run be bs input hbs, hb]
    rfl
  · unfold split_file_from_stream
    rw [splitLoop_run be bs input hbs, hb]
    simp [mkResult, Int.natCast_nonneg]
  · unfold split_file_from_stream
    rw [splitLoop_run be bs input hbs, hb]
    simp [mkResult, Int.natCast_nonneg]

theorem length_evens_paired (input : List Nat) :
    (evens (paired input)).length = input.length / 2 := by
  rw [length_evens, length_paired]
  omega

theorem length_odds_paired (input : List Nat) :
    (odds (paired input)).length = input.length / 2 := by
  rw [length_odds, length_paired]
  omega

theorem length_loSel_paired (be : Bool) (input : List Nat) :
    (loSel be (paired input)).length = input.length / 2 := by
  cases be <;> simp [loSel, length_evens_paired, length_odds_paired]

theorem length_upSel_paired (be : Bool) (input : List Nat) :
    (upSel be (paired input)).length = input.length / 2 := by
  cases be <;> simp [upSel, length_evens_paired, length_odds_paired]

theorem evens_paired_getElem (input : List Nat) (i : Nat) (hi : i < input.length / 2) :
    (evens (paired input))[i]? = input[2 * i]? := by
  rw [evens_getElem?]
  unfold paired
  rw [List.getElem?_take, if_pos (by omega)]

theorem odds_paired_getElem (input : List Nat) (i : Nat) (hi : i < input.length / 2) :
    (odds (paired input))[i]? = input[2 * i + 1]? := by
  rw [odds_getElem?]
  unfold paired
  rw [List.getElem?_take, if_pos (by omega)]

theorem reconstruct_loSel_upSel (be : Bool) (p x y : List Nat) (hp : p.length % 2 = 0)
    (hxy : interleave x y = [] ∧ interleave y x = []) :
    reconstruct be (loSel be p ++ x) (upSel be p ++ y) = p := by
  cases be <;>
    simp [reconstruct, loSel, upSel, interleave_evens_odds p hp, hxy.1, hxy.2]

/-! ### Claims -/

/-- C1: Deinterleave correctness: for every input and every positive buffer
size, over the even-length prefix of the input the loop writes the bytes at
even offsets (0, 2, 4, ...), in original relative order, to the upper sink
and those at odd offsets to the lower sink in big-endian mode; in
little-endian mode the assignment is swapped. -/
theorem split_deinterleave_correct (bs : Nat) (input : List Nat) (hbs : 1 ≤ bs) :
    ((splitLoop true bs input initState).up.length = input.length / 2
      ∧ (splitLoop true bs input initState).lo.length = input.length / 2
      ∧ ∀ i, i < input.length / 2 →
          (splitLoop true bs input initState).up[i]? = input[2 * i]?
        ∧ (splitLoop true bs input initState).lo[i]? = input[2 * i + 1]?)
  ∧ ((splitLoop false bs input initState).lo.length = input.length / 2
      ∧ (splitLoop false bs input initState).up.length = input.length / 2
      ∧ ∀ i, i < input.length / 2 →
          (splitLoop false bs input initState).lo[i]? = input[2 * i]?
        ∧ (splitLoop false bs input initState).up[i]? = input[2 * i + 1]?) := by
  rw [splitLoop_run true bs input hbs, splitLoop_run false bs input hbs]
  simp only [upSel, loSel, if_true, Bool.false_eq_true, if_false]
  exact ⟨⟨length_evens_paired input, length_odds_paired input,
          fun i hi => ⟨evens_paired_getElem input i hi, odds_paired_getElem input i hi⟩⟩,
        ⟨length_evens_paired input, length_odds_paired input,
          fun i hi => ⟨evens_paired_getElem input i hi, odds_paired_getElem input i hi⟩⟩⟩

/-- C1 witness, at the spec's concrete example `[0x12, 0x34, 0xAB, 0xCD]`
with buffer size 2. -/
theorem split_deinterleave_correct_witness :
    1 ≤ 2 ∧
    (((splitLoop true 2 [18, 52, 171, 205] initState).up.length = [18, 52, 171, 205].length / 2
      ∧ (splitLoop true 2 [18, 52, 171, 205] initState).lo.length = [18, 52, 171, 205].length / 2
      ∧ ∀ i, i < [18, 52, 171, 205].length / 2 →
          (splitLoop true 2 [18, 52, 171, 205] initState).up[i]? = [18, 52, 171, 205][2 * i]?
        ∧ (splitLoop true 2 [18, 52, 171, 205] initState).lo[i]? = [18, 52, 171, 205][2 * i + 1]?)
    ∧ ((splitLoop false 2 [18, 52, 171, 205] initState).lo.length = [18, 52, 171, 205].length / 2
      ∧ (splitLoop false 2 [18, 52, 171, 205] initState).up.length = [18, 52, 171, 205].length / 2
      ∧ ∀ i, i < [18, 52, 171, 205].length / 2 →
          (splitLoop false 2 [18, 52, 171, 205] initState).lo[i]? = [18, 52, 171, 205][2 * i]?
        ∧ (splitLoop false 2 [18, 52, 171, 205] initState).up[i]? = [18, 52, 171, 205][2 * i + 1]?)) :=
  ⟨by decide, split_deinterleave_correct 2 [18, 52, 171, 205] (by decide)⟩

/-- C2: Round-trip: for every input, byte-order mode, odd-byte policy and
positive buffer size, interleaving the two sink contents word-by-word per
the same byte-order mode reconstructs exactly the even-length prefix of the
input. -/
theorem split_roundTrip (be : Bool) (a : OddByteAction) (bs : Nat) (input : List Nat)
    (hbs : 1 ≤ bs) :
    reconstruct be (sinksOf (split_file_from_stream be a bs input)).1
      (sinksOf (split_file_from_stream be a bs input)).2 = paired input := by
  rcases Nat.mod_two_eq_zero_or_one input.length with h | h
  · rw [split_eq_of_even be a bs input hbs h]
    have := reconstruct_loSel_upSel be (paired input) [] []
      (length_paired_even input) ⟨rfl, rfl⟩
    simpa [sinksOf] using this
  · obtain ⟨b, hget, he, hs, hl, hu⟩ := split_eq_of_odd be bs input hbs h
    cases a
    · rw [he]
      have := reconstruct_loSel_upSel be (paired input) [] []
        (length_paired_even input) ⟨rfl, rfl⟩
      simpa [sinksOf] using this
    · rw [hs]
      have := reconstruct_loSel_upSel be (paired input) [] []
        (length_paired_even input) ⟨rfl, rfl⟩
      simpa [sinksOf] using this
    · rw [hl]
      have := reconstruct_loSel_upSel be (paired input) [b] []
        (length_paired_even input) ⟨rfl, rfl⟩
      simpa [sinksOf] using this
    · rw [hu]
      have := reconstruct_loSel_upSel be (paired input) [] [b]
        (length_paired_even input) ⟨rfl, rfl⟩
      simpa [sinksOf] using this

/-- C2 witness, at a concrete odd-length input with the lower-assign policy. -/
theorem split_roundTrip_witness :
    1 ≤ 3 ∧
    reconstruct true (sinksOf (split_file_from_stream true OddByteAction.lower 3 [1, 2, 3, 4, 5])).1
      (sinksOf (split_file_from_stream true OddByteAction.lower 3 [1, 2, 3, 4, 5])).2 =
        paired [1, 2, 3, 4, 5] :=
  ⟨by decide, split_roundTrip true OddByteAction.lower 3 [1, 2, 3, 4, 5] (by decide)⟩

/-- C3: Buffer-size independence: for every input, byte-order mode and
odd-byte policy, any two positive buffer sizes give the same final loop
state (identical sink contents) and the same overall result. -/
theorem split_bufferSizeIndependent (be : Bool) (a : OddByteAction) (b1 b2 : Nat)
    (input : List Nat) (h1 : 1 ≤ b1) (h2 : 1 ≤ b2) :
    splitLoop be b1 input initState = splitLoop be b2 input initState ∧
    split_file_from_stream be a b1 input = split_file_from_stream be a b2 input := by
  constructor
  · rw [splitLoop_run be b1 input h1, splitLoop_run be b2 input h2]
  · rcases Nat.mod_two_eq_zero_or_one input.length with h | h
    · rw [split_eq_of_even be a b1 input h1 h, split_eq_of_even be a b2 input h2 h]
    · obtain ⟨b, hget, he1, hs1, hl1, hu1⟩ := split_eq_of_odd be b1 input h1 h
      obtain ⟨b', hget', he2, hs2, hl2, hu2⟩ := split_eq_of_odd be b2 input h2 h
      have hbb : b = b' := by
        rw [hget] at hget'
        exact Option.some.inj hget'
      subst hbb
      cases a
      · rw [he1, he2]
      · rw [hs1, hs2]
      · rw [hl1, hl2]
      · rw [hu1, hu2]

/-- C3 witness, with the buffer sizes 1 and 100000 named by the spec. -/
theorem split_bufferSizeIndependent_witness :
    1 ≤ 1 ∧ 1 ≤ 100000 ∧
    (splitLoop true 1 [10, 20, 30] initState = splitLoop true 100000 [10, 20, 30] initState ∧
     split_file_from_stream true OddByteAction.skip 1 [10, 20, 30] =
       split_file_from_stream true OddByteAction.skip 100000 [10, 20, 30]) :=
  ⟨by decide, by decide,
    split_bufferSizeIndependent true OddByteAction.skip 1 100000 [10, 20, 30]
      (by decide) (by decide)⟩

/-- C4: Even-length postcondition: for every input of even length L
(including L = 0) and any policy, the call succeeds, reports L/2 word
pairs and no trailing byte, and each sink holds exactly L/2 bytes. -/
theorem split_evenLength_post (be : Bool) (a : OddByteAction) (bs : Nat) (input : List Nat)
    (hbs : 1 ≤ bs) (hL : input.length % 2 = 0) :
    ∃ r, split_file_from_stream be a bs input = Except.ok r ∧
      r.bytesWritten = input.length / 2 ∧ r.hadOddByte = false ∧ r.oddByteValue = -1 ∧
      r.lo.length = input.length / 2 ∧ r.up.length = input.length / 2 :=
  ⟨_, split_eq_of_even be a bs input hbs hL, rfl, rfl, rfl,
    length_loSel_paired be input, length_upSel_paired be input⟩

/-- C4 witness, at the empty input: zero-length sinks, zero pairs, no error. -/
theorem split_evenLength_post_witness :
    1 ≤ 1 ∧ (List.length ([] : List Nat)) % 2 = 0 ∧
    (∃ r, split_file_from_stream true OddByteAction.error 1 [] = Except.ok r ∧
      r.bytesWritten = (List.length ([] : List Nat)) / 2 ∧ r.hadOddByte = false ∧
      r.oddByteValue = -1 ∧
      r.lo.length = (List.length ([] : List Nat)) / 2 ∧
      r.up.length = (List.length ([] : List Nat)) / 2) :=
  ⟨by decide, by decide,
    split_evenLength_post true OddByteAction.error 1 [] (by decide) (by decide)⟩

/-- C5: Error policy: on odd-length input with the `error` policy the call
fails carrying the trailing byte, only after all complete word pairs were
written: each sink holds exactly (L-1)/2 bytes — the deinterleave of the
even-length prefix — and the trailing byte was written to neither sink. -/
theorem split_oddLength_errorPolicy (be : Bool) (bs : Nat) (input : List Nat)
    (hbs : 1 ≤ bs) (hL : input.length % 2 = 1) :
    ∃ b e, input[input.length - 1]? = some b ∧
      split_file_from_stream be OddByteAction.error bs input = Except.error e ∧
      e.oddByte = (b : Int) ∧
      e.lo = loSel be (paired input) ∧ e.up = upSel be (paired input) ∧
      e.lo.length = (input.length - 1) / 2 ∧ e.up.length = (input.length - 1) / 2 := by
  obtain ⟨b, hget, he, _, _, _⟩ := split_eq_of_odd be bs input hbs hL
  have hdiv : input.length / 2 = (input.length - 1) / 2 := by omega
  refine ⟨b, _, hget, he, rfl, rfl, rfl, ?_, ?_⟩
  · rw [length_loSel_paired be input, hdiv]
  · rw [length_upSel_paired be input, hdiv]

/-- C5 witness, at input [1, 2, 3] with buffer size 2. -/
theorem split_oddLength_errorPolicy_witness :
    1 ≤ 2 ∧ [1, 2, 3].length % 2 = 1 ∧
    (∃ (b : Nat) (e : OddLengthError), [1, 2, 3][[1, 2, 3].length - 1]? = some b ∧
      split_file_from_stream true OddByteAction.error 2 [1, 2, 3] = Except.error e ∧
      e.oddByte = (b : Int) ∧
      e.lo = loSel true (paired [1, 2, 3]) ∧ e.up = upSel true (paired [1, 2, 3]) ∧
      e.lo.length = ([1, 2, 3].length - 1) / 2 ∧ e.up.length = ([1, 2, 3].length - 1) / 2) :=
  ⟨by decide, by decide,
    split_oddLength_errorPolicy true 2 [1, 2, 3] (by decide) (by decide)⟩

/-- C6 counterexample: with the `skip` policy on the odd-length input
[0x7F], the returned result is byte-for-byte identical to the result for
the empty input — `had_odd_byte` is `false` and `odd_byte_value` is `-1` —
so the returned result does not record that a trailing byte existed and was
discarded. -/
theorem split_skip_result_indistinguishable :
    split_file_from_stream true OddByteAction.skip 1 [127] =
      split_file_from_stream true OddByteAction.skip 1 [] ∧
    split_file_from_stream true OddByteAction.skip 1 [127] =
      Except.ok { bytesWritten := 0, hadOddByte := false, oddByteValue := -1,
                  lo := [], up := [] } :=
  ⟨rfl, rfl⟩

/-- C6 (amended): Skip policy: on odd-length input with `skip` the call
succeeds with (L-1)/2 word pairs, both sinks hold exactly (L-1)/2 bytes
(the deinterleave of the even prefix; the trailing byte is written to
neither sink), and the trailing byte is absent from the result; the
returned result does NOT record that a trailing byte was discarded — its
`had_odd_byte` flag is `false` and `odd_byte_value` is `-1`, exactly as
for even input (the discard is only noted in a warning message). -/
theorem split_skip_post (be : Bool) (bs : Nat) (input : List Nat)
    (hbs : 1 ≤ bs) (hL : input.length % 2 = 1) :
    ∃ r, split_file_from_stream be OddByteAction.skip bs input = Except.ok r ∧
      r.bytesWritten = (input.length - 1) / 2 ∧
      r.hadOddByte = false ∧ r.oddByteValue = -1 ∧
      r.lo = loSel be (paired input) ∧ r.up = upSel be (paired input) ∧
      r.lo.length = (input.length - 1) / 2 ∧ r.up.length = (input.length - 1) / 2 := by
  obtain ⟨b, hget, _, hs, _, _⟩ := split_eq_of_odd be bs input hbs hL
  have hdiv : input.length / 2 = (input.length - 1) / 2 := by omega
  refine ⟨_, hs, ?_, rfl, rfl, rfl, rfl, ?_, ?_⟩
  · exact hdiv
  · rw [length_loSel_paired be input, hdiv]
  · rw [length_upSel_paired be input, hdiv]

/-- C6 witness, at input [0x7F] with buffer size 1. -/
theorem split_skip_post_witness :
    1 ≤ 1 ∧ [127].length % 2 = 1 ∧
    (∃ r, split_file_from_stream true OddByteAction.skip 1 [127] = Except.ok r ∧
      r.bytesWritten = ([127].length - 1) / 2 ∧
      r.hadOddByte = false ∧ r.oddByteValue = -1 ∧
      r.lo = loSel true (paired [127]) ∧ r.up = upSel true (paired [127]) ∧
      r.lo.length = ([127].length - 1) / 2 ∧ r.up.length = ([127].length - 1) / 2) :=
  ⟨by decide, by decide, split_skip_post true 1 [127] (by decide) (by decide)⟩

/-- C7: Assign policies: on odd-length input, `lower` (resp. `upper`)
succeeds with (L-1)/2 word pairs, appends the trailing byte b as the final
byte of the designated sink — which then holds (L-1)/2 + 1 bytes, the other
(L-1)/2 — and records `trailing_byte = b` in the result. -/
theorem split_assign_post (be : Bool) (bs : Nat) (input : List Nat)
    (hbs : 1 ≤ bs) (hL : input.length % 2 = 1) :
    ∃ b, input[input.length - 1]? = some b ∧
      (∃ r, split_file_from_stream be OddByteAction.lower bs input = Except.ok r ∧
        r.bytesWritten = (input.length - 1) / 2 ∧ r.hadOddByte = true ∧
        r.oddByteValue = (b : Int) ∧
        r.lo = loSel be (paired input) ++ [b] ∧ r.up = upSel be (paired input) ∧
        r.lo.length = (input.length - 1) / 2 + 1 ∧ r.up.length = (input.length - 1) / 2) ∧
      (∃ r, split_file_from_stream be OddByteAction.upper bs input = Except.ok r ∧
        r.bytesWritten = (input.length - 1) / 2 ∧ r.hadOddByte = true ∧
        r.oddByteValue = (b : Int) ∧
        r.lo = loSel be (paired input) ∧ r.up = upSel be (paired input) ++ [b] ∧
        r.lo.length = (input.length - 1) / 2 ∧ r.up.length = (input.length - 1) / 2 + 1) := by
  obtain ⟨b, hget, _, _, hl, hu⟩ := split_eq_of_odd be bs input hbs hL
  have hdiv : input.length / 2 = (input.length - 1) / 2 := by omega
  refine ⟨b, hget, ⟨_, hl, hdiv, rfl, rfl, rfl, rfl, ?_, ?_⟩,
    ⟨_, hu, hdiv, rfl, rfl, rfl, rfl, ?_, ?_⟩⟩
  · rw [List.length_append, length_loSel_paired be input, hdiv]
    rfl
  · rw [length_upSel_paired be input, hdiv]
  · rw [length_loSel_paired be input, hdiv]
  · rw [List.length_append, length_upSel_paired be input, hdiv]
    rfl

/-- C7 witness, at the spec's example: input [0x7F] with `upper` gives
upper sink [0x7F], empty lower sink and zero word pairs. -/
theorem split_assign_post_witness :
    1 ≤ 1 ∧ [127].length % 2 = 1 ∧
    (∃ b : Nat, [127][[127].length - 1]? = some b ∧
      (∃ r, split_file_from_stream true OddByteAction.lower 1 [127] = Except.ok r ∧
        r.bytesWritten = ([127].length - 1) / 2 ∧ r.hadOddByte = true ∧
        r.oddByteValue = (b : Int) ∧
        r.lo = loSel true (paired [127]) ++ [b] ∧ r.up = upSel true (paired [127]) ∧
        r.lo.length = ([127].length - 1) / 2 + 1 ∧ r.up.length = ([127].length - 1) / 2) ∧
      (∃ r, split_file_from_stream true OddByteAction.upper 1 [127] = Except.ok r ∧
        r.bytesWritten = ([127].length - 1) / 2 ∧ r.hadOddByte = true ∧
        r.oddByteValue = (b : Int) ∧
        r.lo = loSel true (paired [127]) ∧ r.up = upSel true (paired [127]) ++ [b] ∧
        r.lo.length = ([127].length - 1) / 2 ∧ r.up.length = ([127].length - 1) / 2 + 1)) :=
  ⟨by decide, by decide, split_assign_post true 1 [127] (by decide) (by decide)⟩

/-- C8: Remainder invariant: at every loop boundary the carried remainder
holds 0 or 1 bytes, the remainder left at loop exit has length
`input.length % 2` (so it is empty unless the total length is odd), and
after the final odd-byte disposition no byte remains carried: on every
outcome all input bytes are accounted for — in the sinks, discarded by
`skip` (the `input.length % 2` term when no odd byte is reported), or
carried in the error. -/
theorem split_remainder_invariant (be : Bool) (bs : Nat) (input : List Nat) (hbs : 1 ≤ bs) :
    (∀ st ∈ splitLoopTrace be bs input initState, st.remainder.length ≤ 1) ∧
    (splitLoop be bs input initState).remainder.length = input.length % 2 ∧
    (∀ a : OddByteAction,
      (∀ r, split_file_from_stream be a bs input = Except.ok r →
        r.lo.length + r.up.length + (if r.hadOddByte then 0 else input.length % 2) =
          input.length) ∧
      (∀ e, split_file_from_stream be a bs input = Except.error e →
        e.lo.length + e.up.length + 1 = input.length)) := by
  refine ⟨?_, ?_, ?_⟩
  · exact splitLoopTraceAux_remainder be bs input.length input initState (by simp [initState])
  · rw [splitLoop_run be bs input hbs]
    exact length_oddTail input
  · intro a
    rcases Nat.mod_two_eq_zero_or_one input.length with h | h
    · refine ⟨?_, ?_⟩
      · intro r hr
        rw [split_eq_of_even be a bs input hbs h] at hr
        injection hr with hr
        subst hr
        simp [length_loSel_paired, length_upSel_paired]
        omega
      · intro e heq
        rw [split_eq_of_even be a bs input hbs h] at heq
        exact Except.noConfusion heq
    · obtain ⟨b, hget, he1, hs1, hl1, hu1⟩ := split_eq_of_odd be bs input hbs h
      cases a
      · refine ⟨?_, ?_⟩
        · intro r hr
          rw [he1] at hr
          exact Except.noConfusion hr
        · intro e heq
          rw [he1] at heq
          injection heq with heq
          subst heq
          simp [length_loSel_paired, length_upSel_paired]
          omega
      · refine ⟨?_, ?_⟩
        · intro r hr
          rw [hs1] at hr
          injection hr with hr
          subst hr
          simp [length_loSel_paired, length_upSel_paired]
          omega
        · intro e heq
          rw [hs1] at heq
          exact Except.noConfusion heq
      · refine ⟨?_, ?_⟩
        · intro r hr
          rw [hl1] at hr
          injection hr with hr
          subst hr
          simp [List.length_append, length_loSel_paired, length_upSel_paired]
          omega
        · intro e heq
          rw [hl1] at heq
          exact Except.noConfusion heq
      · refine ⟨?_, ?_⟩
        · intro r hr
          rw [hu1] at hr
          injection hr with hr
          subst hr
          simp [List.length_append, length_loSel_paired, length_upSel_paired]
          omega
        · intro e heq
          rw [hu1] at heq
          exact Except.noConfusion heq

/-- C8 witness, at buffer size 1 on the odd-length input [1, 2, 3]. -/
theorem split_remainder_invariant_witness :
    1 ≤ 1 ∧
    ((∀ st ∈ splitLoopTrace true 1 [1, 2, 3] initState, st.remainder.length ≤ 1) ∧
     (splitLoop true 1 [1, 2, 3] initState).remainder.length = [1, 2, 3].length % 2 ∧
     (∀ a : OddByteAction,
       (∀ r, split_file_from_stream true a 1 [1, 2, 3] = Except.ok r →
         r.lo.length + r.up.length + (if r.hadOddByte then 0 else [1, 2, 3].length % 2) =
           [1, 2, 3].length) ∧
       (∀ e, split_file_from_stream true a 1 [1, 2, 3] = Except.error e →
         e.lo.length + e.up.length + 1 = [1, 2, 3].length))) :=
  ⟨by decide, split_remainder_invariant true 1 [1, 2, 3] (by decide)⟩

/-- C9: Termination: for every finite input, start state and positive
buffer size, the loop reaches its exit within |input| iterations — the
boundary-state trace has at most |input| + 1 entries — and any fuel of at
least |input| gives the same final state (the loop has stabilized, so the
function is total). -/
theorem split_terminates (be : Bool) (bs : Nat) (input : List Nat) (s : LoopState)
    (hbs : 1 ≤ bs) :
    (splitLoopTrace be bs input s).length ≤ input.length + 1 ∧
    ∀ fuel, input.length ≤ fuel →
      splitLoopAux be bs fuel input s = splitLoop be bs input s := by
  refine ⟨?_, ?_⟩
  · exact splitLoopTraceAux_length be bs hbs input.length input s
  · intro fuel hf
    exact splitLoopAux_fuel_irrel be bs hbs fuel input.length input s hf le_rfl

/-- C9 witness, at buffer size 2 on a 5-byte input. -/
theorem split_terminates_witness :
    1 ≤ 2 ∧
    ((splitLoopTrace true 2 [9, 8, 7, 6, 5] initState).length ≤ [9, 8, 7, 6, 5].length + 1 ∧
     ∀ fuel, [9, 8, 7, 6, 5].length ≤ fuel →
       splitLoopAux true 2 fuel [9, 8, 7, 6, 5] initState =
         splitLoop true 2 [9, 8, 7, 6, 5] initState) :=
  ⟨by decide, split_terminates true 2 [9, 8, 7, 6, 5] initState (by decide)⟩

/-- C10: Sink balance: on every outcome the sink lengths differ by at most
one, and the exact relation is determined: under the lower-assign policy on
odd-length input the lower sink is exactly one byte longer, under the
upper-assign policy on odd-length input the upper sink is exactly one byte
longer, and in every other case the two sink lengths are exactly equal. -/
theorem split_sink_balance (be : Bool) (a : OddByteAction) (bs : Nat) (input : List Nat)
    (hbs : 1 ≤ bs) :
    (∀ r, split_file_from_stream be a bs input = Except.ok r →
      (r.lo.length ≤ r.up.length + 1 ∧ r.up.length ≤ r.lo.length + 1) ∧
      (if input.length % 2 = 1 ∧ a = OddByteAction.lower then
         r.lo.length = r.up.length + 1
       else if input.length % 2 = 1 ∧ a = OddByteAction.upper then
         r.up.length = r.lo.length + 1
       else r.lo.length = r.up.length)) ∧
    (∀ e, split_file_from_stream be a bs input = Except.error e →
      e.lo.length = e.up.length) := by
  rcases Nat.mod_two_eq_zero_or_one input.length with h | h
  · refine ⟨?_, ?_⟩
    · intro r hr
      rw [split_eq_of_even be a bs input hbs h] at hr
      injection hr with hr
      subst hr
      simp [h, length_loSel_paired, length_upSel_paired]
    · intro e heq
      rw [split_eq_of_even be a bs input hbs h] at heq
      exact Except.noConfusion heq
  · obtain ⟨b, hget, he1, hs1, hl1, hu1⟩ := split_eq_of_odd be bs input hbs h
    cases a
    · refine ⟨?_, ?_⟩
      · intro r hr
        rw [he1] at hr
        exact Except.noConfusion hr
      · intro e heq
        rw [he1] at heq
        injection heq with heq
        subst heq
        simp [length_loSel_paired, length_upSel_paired]
    · refine ⟨?_, ?_⟩
      · intro r hr
        rw [hs1] at hr
        injection hr with hr
        subst hr
        simp [h, length_loSel_paired, length_upSel_paired]
      · intro e heq
        rw [hs1] at heq
        exact Except.noConfusion heq
    · refine ⟨?_, ?_⟩
      · intro r hr
        rw [hl1] at hr
        injection hr with hr
        subst hr
        rw [if_pos ⟨h, rfl⟩]
        refine ⟨⟨?_, ?_⟩, ?_⟩ <;>
            simp [List.length_append, length_loSel_paired, length_upSel_paired] <;>
          omega
      · intro e heq
        rw [hl1] at heq
        exact Except.noConfusion heq
    · refine ⟨?_, ?_⟩
      · intro r hr
        rw [hu1] at hr
        injection hr with hr
        subst hr
        rw [if_neg (by simp), if_pos ⟨h, rfl⟩]
        refine ⟨⟨?_, ?_⟩, ?_⟩ <;>
            simp [List.length_append, length_loSel_paired, length_upSel_paired] <;>
          omega
      · intro e heq
        rw [hu1] at heq
        exact Except.noConfusion heq

/-- C10 witness, at buffer size 1 on the odd-length input [1, 2, 3] with
the lower-assign policy, where the lower sink must be exactly one byte
longer. -/
theorem split_sink_balance_witness :
    1 ≤ 1 ∧
    ((∀ r, split_file_from_stream true OddByteAction.lower 1 [1, 2, 3] = Except.ok r →
      (r.lo.length ≤ r.up.length + 1 ∧ r.up.length ≤ r.lo.length + 1) ∧
      (if [1, 2, 3].length % 2 = 1 ∧ OddByteAction.lower = OddByteAction.lower then
         r.lo.length = r.up.length + 1
       else if [1, 2, 3].length % 2 = 1 ∧ OddByteAction.lower = OddByteAction.upper then
         r.up.length = r.lo.length + 1
       else r.lo.length = r.up.length)) ∧
    (∀ e, split_file_from_stream true OddByteAction.lower 1 [1, 2, 3] = Except.error e →
      e.lo.length = e.up.length)) :=
  ⟨by decide, split_sink_balance true OddByteAction.lower 1 [1, 2, 3] (by decide)⟩
